import Mathlib

/-!
Verification development for the project/time-tracking core of
shyli/rust-project-manager.

Shallow embedding notes:
* `Uuid` is modelled as `Nat`; the nondeterministic generator `Uuid::new_v4`
  is modelled by threading a fresh counter `nextId` through each manager state
  (every generated id equals the counter at generation time, so distinct
  generations yield distinct ids, matching v4-uuid freshness).
* `chrono::DateTime<Utc>` is modelled as an integer timestamp in seconds
  (`Timestamp := Int`); `signed_duration_since` is subtraction and
  `Duration::num_minutes` is truncating division of the elapsed seconds by 60
  (`Int.tdiv`, the Rust `/` semantics on `i64`).
* `Utc::now()` is modelled by an explicit `now` argument at each call site
  that reads the clock.
* `HashMap<Uuid, V>` is modelled as an association list `List (Uuid × V)`;
  `insert` replaces an existing binding in place or appends a new one,
  `get`/`get_mut` act on the first binding with the key, `values` is the list
  of second components, `retain` is `filter`.  Reachable manager states have
  distinct keys, mirroring the real map.
* Fallible Rust methods returning `Result<(), String>` become
  `Except String Unit` paired with the post state (the pre state on error,
  since the Rust code checks all guards before mutating).
-/

/-- Uuids are modelled as natural numbers. -/
abbrev Uuid := Nat

/-- Timestamps (chrono DateTime of Utc) are modelled as integer seconds. -/
abbrev Timestamp := Int

/-- Event kind, from models.rs EventType. -/
inductive EventType where
  | projectRelated (projectId : Uuid)
  | nonProject
deriving DecidableEq, Repr

/-- Event entity, from models.rs. -/
structure Event where
  id : Uuid
  title : String
  description : Option String
  event_type : EventType
  start_time : Timestamp
  end_time : Option Timestamp
  created_at : Timestamp
deriving DecidableEq, Repr

/-- Event::new: fresh event with no end time.  The generated uuid and the
clock reading are passed explicitly. -/
def Event.new (title : String) (description : Option String)
    (event_type : EventType) (start_time : Timestamp)
    (id : Uuid) (now : Timestamp) : Event :=
  { id := id, title := title, description := description,
    event_type := event_type, start_time := start_time,
    end_time := none, created_at := now }

/-- Event::set_end_time. -/
def Event.set_end_time (e : Event) (end_time : Timestamp) : Event :=
  { e with end_time := some end_time }

/-- Event::is_completed. -/
def Event.is_completed (e : Event) : Bool :=
  e.end_time.isSome

/-- TimeRecord entity, from models.rs. -/
structure TimeRecord where
  id : Uuid
  event_id : Uuid
  project_id : Option Uuid
  start_time : Timestamp
  end_time : Timestamp
  duration_minutes : Int
  created_at : Timestamp
deriving DecidableEq, Repr

/-- TimeRecord::new: duration_minutes is the elapsed seconds divided by 60
with Rust i64 division semantics (truncation toward zero). -/
def TimeRecord.new (event_id : Uuid) (project_id : Option Uuid)
    (start_time : Timestamp) (end_time : Timestamp)
    (id : Uuid) (now : Timestamp) : TimeRecord :=
  { id := id, event_id := event_id, project_id := project_id,
    start_time := start_time, end_time := end_time,
    duration_minutes := Int.tdiv (end_time - start_time) 60,
    created_at := now }

/-- HashMap get: first binding with the key. -/
def alGet {α : Type} (m : List (Uuid × α)) (k : Uuid) : Option α :=
  (m.find? (fun p => p.1 == k)).map (fun p => p.2)

/-- HashMap contains_key. -/
def alContains {α : Type} (m : List (Uuid × α)) (k : Uuid) : Bool :=
  m.any (fun p => p.1 == k)

/-- HashMap insert: replace an existing binding, else append a new one. -/
def alInsert {α : Type} (m : List (Uuid × α)) (k : Uuid) (v : α) :
    List (Uuid × α) :=
  if alContains m k then
    m.map (fun p => if p.1 == k then (k, v) else p)
  else m ++ [(k, v)]

/-- In-place mutation through get_mut: update the value at key k. -/
def alModify {α : Type} (m : List (Uuid × α)) (k : Uuid) (f : α → α) :
    List (Uuid × α) :=
  m.map (fun p => if p.1 == k then (p.1, f p.2) else p)

/-- HashMap remove. -/
def alRemove {α : Type} (m : List (Uuid × α)) (k : Uuid) :
    List (Uuid × α) :=
  m.filter (fun p => p.1 != k)

/-- Error string of event_manager.rs for a missing event. -/
def errEventNotFound : String := "事件不存在"

/-- Error string of event_manager.rs for completing a completed event. -/
def errAlreadyEnded : String := "事件已经结束"

/-- Error string of event_manager.rs for an end time at or before start. -/
def errEndBeforeStart : String := "结束时间必须晚于开始时间"

/-- EventManager state, from event_manager.rs, plus the fresh-uuid counter. -/
structure EventManager where
  events : List (Uuid × Event)
  time_records : List (Uuid × TimeRecord)
  nextId : Nat
deriving DecidableEq, Repr

/-- EventManager::new. -/
def EventManager.new : EventManager :=
  { events := [], time_records := [], nextId := 0 }

/-- EventManager::add_project_event. -/
def EventManager.add_project_event (s : EventManager) (title : String)
    (description : Option String) (project_id : Uuid)
    (start_time : Option Timestamp) (now : Timestamp) :
    Uuid × EventManager :=
  let st := start_time.getD now
  let event := Event.new title description (.projectRelated project_id) st
    s.nextId now
  (event.id,
    { s with events := alInsert s.events event.id event,
             nextId := s.nextId + 1 })

/-- EventManager::add_non_project_event. -/
def EventManager.add_non_project_event (s : EventManager) (title : String)
    (description : Option String) (start_time : Option Timestamp)
    (now : Timestamp) : Uuid × EventManager :=
  let st := start_time.getD now
  let event := Event.new title description .nonProject st s.nextId now
  (event.id,
    { s with events := alInsert s.events event.id event,
             nextId := s.nextId + 1 })

/-- Project id copied from an event kind when a time record is synthesized. -/
def projectIdOfType : EventType → Option Uuid
  | .projectRelated id => some id
  | .nonProject => none

/-- EventManager::set_event_end_time: guards in source order (missing event,
already ended, end at or before start), then sets the end time and stores
one synthesized time record. -/
def EventManager.set_event_end_time (s : EventManager) (event_id : Uuid)
    (end_time : Option Timestamp) (now : Timestamp) :
    Except String Unit × EventManager :=
  let endT := end_time.getD now
  match alGet s.events event_id with
  | some event =>
    if event.end_time.isSome then
      (.error errAlreadyEnded, s)
    else if endT ≤ event.start_time then
      (.error errEndBeforeStart, s)
    else
      let project_id := projectIdOfType event.event_type
      let time_record := TimeRecord.new event_id project_id event.start_time
        endT s.nextId now
      (.ok (),
        { events := alModify s.events event_id
            (fun e => e.set_end_time endT),
          time_records := alInsert s.time_records time_record.id time_record,
          nextId := s.nextId + 1 })
  | none => (.error errEventNotFound, s)

/-- EventManager::delete_event: remove the event and retain only time
records of other events. -/
def EventManager.delete_event (s : EventManager) (event_id : Uuid) :
    Except String Unit × EventManager :=
  if alContains s.events event_id then
    (.ok (),
      { s with events := alRemove s.events event_id,
               time_records :=
                 s.time_records.filter (fun q => q.2.event_id != event_id) })
  else (.error errEventNotFound, s)

/-- EventManager::update_event: partial update of title and description. -/
def EventManager.update_event (s : EventManager) (event_id : Uuid)
    (title : Option String) (description : Option String) :
    Except String Unit × EventManager :=
  if alContains s.events event_id then
    (.ok (),
      { s with events := alModify s.events event_id (fun e =>
          let e1 := match title with
            | some t => { e with title := t }
            | none => e
          if description.isSome then { e1 with description := description }
          else e1) })
  else (.error errEventNotFound, s)

/-- EventManager::get_event. -/
def EventManager.get_event (s : EventManager) (event_id : Uuid) :
    Option Event :=
  alGet s.events event_id

/-- EventManager::get_event_time_record: first stored record of the event. -/
def EventManager.get_event_time_record (s : EventManager) (event_id : Uuid) :
    Option TimeRecord :=
  ((s.time_records.map (fun q => q.2)).find?
    (fun r => r.event_id == event_id))

/-- Project entity, from models.rs. -/
structure Project where
  id : Uuid
  name : String
  description : Option String
  created_at : Timestamp
  is_active : Bool
deriving DecidableEq, Repr

/-- Project::new: created inactive. -/
def Project.new (name : String) (description : Option String)
    (id : Uuid) (now : Timestamp) : Project :=
  { id := id, name := name, description := description,
    created_at := now, is_active := false }

/-- Project::set_active. -/
def Project.set_active (p : Project) (active : Bool) : Project :=
  { p with is_active := active }

/-- Error string of project_manager.rs for a missing project. -/
def errProjectNotFound : String := "项目不存在"

/-- ProjectManager state, from project_manager.rs, plus the fresh-uuid
counter. -/
structure ProjectManager where
  projects : List (Uuid × Project)
  current_project_id : Option Uuid
  nextId : Nat
deriving DecidableEq, Repr

/-- ProjectManager::new. -/
def ProjectManager.new : ProjectManager :=
  { projects := [], current_project_id := none, nextId := 0 }

/-- ProjectManager::add_project: the new project is activated and made
current exactly when the registry is empty at the call. -/
def ProjectManager.add_project (s : ProjectManager) (name : String)
    (description : Option String) (now : Timestamp) :
    Uuid × ProjectManager :=
  let project := Project.new name description s.nextId now
  let project_id := project.id
  if s.projects.isEmpty then
    (project_id,
      { projects := alInsert s.projects project_id (project.set_active true),
        current_project_id := some project_id,
        nextId := s.nextId + 1 })
  else
    (project_id,
      { s with projects := alInsert s.projects project_id project,
               nextId := s.nextId + 1 })

/-- ProjectManager::delete_project: clear the current pointer when it names
the removed project. -/
def ProjectManager.delete_project (s : ProjectManager) (project_id : Uuid) :
    Except String Unit × ProjectManager :=
  if alContains s.projects project_id then
    (.ok (),
      { s with
          projects := alRemove s.projects project_id,
          current_project_id :=
            if s.current_project_id = some project_id then none
            else s.current_project_id })
  else (.error errProjectNotFound, s)

/-- ProjectManager::switch_to_project: deactivate every project, then
activate the named one and make it current. -/
def ProjectManager.switch_to_project (s : ProjectManager)
    (project_id : Uuid) : Except String Unit × ProjectManager :=
  if alContains s.projects project_id then
    let ps := s.projects.map (fun p => (p.1, p.2.set_active false))
    (.ok (),
      { s with
          projects := alModify ps project_id (fun p => p.set_active true),
          current_project_id := some project_id })
  else (.error errProjectNotFound, s)

/-- ProjectManager::get_current_project. -/
def ProjectManager.get_current_project (s : ProjectManager) :
    Option Project :=
  s.current_project_id.bind (fun id => alGet s.projects id)

/-- ProjectManager::get_project. -/
def ProjectManager.get_project (s : ProjectManager) (project_id : Uuid) :
    Option Project :=
  alGet s.projects project_id

/-- ProjectManager::update_project: partial update of name and
description. -/
def ProjectManager.update_project (s : ProjectManager) (project_id : Uuid)
    (name : Option String) (description : Option String) :
    Except String Unit × ProjectManager :=
  if alContains s.projects project_id then
    (.ok (),
      { s with projects := alModify s.projects project_id (fun p =>
          let p1 := match name with
            | some n => { p with name := n }
            | none => p
          if description.isSome then { p1 with description := description }
          else p1) })
  else (.error errProjectNotFound, s)

/-- Window membership filter used by the aggregation functions: the record
starts inside the inclusive window. -/
def inWindow (r : TimeRecord) (start_time s_end : Timestamp) : Bool :=
  decide (start_time ≤ r.start_time) && decide (r.start_time ≤ s_end)

/-- TimeCalculator::calculate_project_time. -/
def calculate_project_time (time_records : List TimeRecord)
    (start_time s_end : Timestamp) : Int :=
  ((time_records.filter (fun r =>
      r.project_id.isSome && inWindow r start_time s_end)).map
    (fun r => r.duration_minutes)).sum

/-- TimeCalculator::calculate_non_project_time. -/
def calculate_non_project_time (time_records : List TimeRecord)
    (start_time s_end : Timestamp) : Int :=
  ((time_records.filter (fun r =>
      r.project_id.isNone && inWindow r start_time s_end)).map
    (fun r => r.duration_minutes)).sum

/-- TimeCalculator::get_efficiency_stats.  The Rust function computes with
f64; the claims below are about the exact value of the computation, so it is
modelled with exact rationals: the division is guarded by the zero test, so
the rational value is always defined (the f64 code never divides by zero and
never produces NaN for these finite operands). -/
def get_efficiency_stats (time_records : List TimeRecord)
    (start_time s_end : Timestamp) : ℚ :=
  let project_time := calculate_project_time time_records start_time s_end
  let non_project_time :=
    calculate_non_project_time time_records start_time s_end
  let total_time := project_time + non_project_time
  if total_time = 0 then 0
  else ((project_time : ℚ) / (total_time : ℚ)) * 100

/-- TimeCalculator::format_duration, using Rust i64 division and remainder
semantics (Int.tdiv, Int.tmod: truncation toward zero). -/
def format_duration (minutes : Int) : String :=
  if minutes < 60 then
    toString minutes ++ "分钟"
  else if minutes < 1440 then
    let hours := Int.tdiv minutes 60
    let remaining_minutes := Int.tmod minutes 60
    if remaining_minutes = 0 then
      toString hours ++ "小时"
    else
      toString hours ++ "小时" ++ toString remaining_minutes ++ "分钟"
  else
    let days := Int.tdiv minutes 1440
    let remaining_hours := Int.tdiv (Int.tmod minutes 1440) 60
    let remaining_minutes := Int.tmod minutes 60
    let r0 := toString days ++ "天"
    let r1 := if remaining_hours > 0 then
        r0 ++ (toString remaining_hours ++ "小时")
      else r0
    if remaining_minutes > 0 then r1 ++ (toString remaining_minutes ++ "分钟")
    else r1

/-- Lookup in an association list distributes over cons. -/
theorem alGet_cons {α : Type} (p : Uuid × α) (m : List (Uuid × α))
    (k : Uuid) :
    alGet (p :: m) k = if p.1 = k then some p.2 else alGet m k := by
  by_cases h : p.1 = k
  · have hb : (p.1 == k) = true := beq_iff_eq.mpr h
    simp [alGet, List.find?, hb, h]
  · have hb : (p.1 == k) = false := by simpa using h
    simp [alGet, List.find?, hb, h]

/-- Containment test distributes over cons. -/
theorem alContains_cons {α : Type} (p : Uuid × α) (m : List (Uuid × α))
    (k : Uuid) :
    alContains (p :: m) k = (decide (p.1 = k) || alContains m k) := by
  by_cases h : p.1 = k
  · have hb : (p.1 == k) = true := beq_iff_eq.mpr h
    simp [alContains, hb, h]
  · have hb : (p.1 == k) = false := by simpa using h
    simp [alContains, hb, h]

/-- Containment test agrees with lookup. -/
theorem alContains_eq_isSome {α : Type} (m : List (Uuid × α)) (k : Uuid) :
    alContains m k = (alGet m k).isSome := by
  induction m with
  | nil => simp [alContains, alGet]
  | cons p m ih =>
    rw [alContains_cons, alGet_cons]
    by_cases h : p.1 = k
    · simp [h]
    · simp [h, ih]

/-- Lookup after a fresh append finds the appended binding. -/
theorem alGet_append_single_self {α : Type} (m : List (Uuid × α))
    (k : Uuid) (v : α) (h : alGet m k = none) :
    alGet (m ++ [(k, v)]) k = some v := by
  induction m with
  | nil => simp [alGet, List.find?]
  | cons p m ih =>
    rw [alGet_cons] at h
    rw [List.cons_append, alGet_cons]
    by_cases hp : p.1 = k
    · simp [hp] at h
    · simp only [hp, if_false] at h ⊢
      exact ih h

/-- Lookup of another key is unchanged by an append. -/
theorem alGet_append_single_ne {α : Type} (m : List (Uuid × α))
    (k k' : Uuid) (v : α) (h : k' ≠ k) :
    alGet (m ++ [(k, v)]) k' = alGet m k' := by
  induction m with
  | nil =>
    have hb : (k == k') = false := by
      simp only [beq_eq_false_iff_ne, ne_eq]
      intro hc; exact h hc.symm
    simp [alGet, List.find?, hb]
  | cons p m ih =>
    rw [List.cons_append, alGet_cons, alGet_cons]
    by_cases hp : p.1 = k'
    · simp [hp]
    · simp only [hp, if_false]
      exact ih

/-- Lookup at the modified key applies the modification. -/
theorem alGet_alModify_self {α : Type} (m : List (Uuid × α)) (k : Uuid)
    (f : α → α) :
    alGet (alModify m k f) k = (alGet m k).map f := by
  induction m with
  | nil => simp [alGet, alModify]
  | cons p m ih =>
    by_cases hp : p.1 = k
    · have hb : (p.1 == k) = true := beq_iff_eq.mpr hp
      rw [alModify, List.map_cons]
      simp only [hb, if_true]
      rw [alGet_cons, alGet_cons]
      simp [hp]
    · have hb : (p.1 == k) = false := by simpa using hp
      rw [alModify, List.map_cons]
      simp only [hb, Bool.false_eq_true, if_false]
      rw [alGet_cons, alGet_cons]
      simp only [hp, if_false]
      exact ih

/-- Lookup at any other key ignores a modification. -/
theorem alGet_alModify_ne {α : Type} (m : List (Uuid × α)) (k k' : Uuid)
    (f : α → α) (h : k' ≠ k) :
    alGet (alModify m k f) k' = alGet m k' := by
  induction m with
  | nil => simp [alGet, alModify]
  | cons p m ih =>
    by_cases hp : p.1 = k
    · have hb : (p.1 == k) = true := beq_iff_eq.mpr hp
      rw [alModify, List.map_cons]
      simp only [hb, if_true]
      rw [alGet_cons, alGet_cons]
      have hne : ¬ p.1 = k' := by rw [hp]; exact fun hc => h hc.symm
      simp only [hne, if_false]
      exact ih
    · have hb : (p.1 == k) = false := by simpa using hp
      rw [alModify, List.map_cons]
      simp only [hb, Bool.false_eq_true, if_false]
      rw [alGet_cons, alGet_cons]
      by_cases hq : p.1 = k'
      · simp [hq]
      · simp only [hq, if_false]
        exact ih

/-- Modification preserves the key sequence. -/
theorem alModify_keys {α : Type} (m : List (Uuid × α)) (k : Uuid)
    (f : α → α) :
    (alModify m k f).map Prod.fst = m.map Prod.fst := by
  induction m with
  | nil => simp [alModify]
  | cons p m ih =>
    rw [alModify, List.map_cons] at *
    by_cases hp : p.1 = k
    · have hb : (p.1 == k) = true := beq_iff_eq.mpr hp
      simp only [hb, if_true, List.map_cons]
      rw [ih]
    · have hb : (p.1 == k) = false := by simpa using hp
      simp only [hb, Bool.false_eq_true, if_false, List.map_cons]
      rw [ih]

/-- Removal distributes over cons. -/
theorem alRemove_cons {α : Type} (p : Uuid × α) (m : List (Uuid × α))
    (k : Uuid) :
    alRemove (p :: m) k =
      if p.1 = k then alRemove m k else p :: alRemove m k := by
  by_cases hp : p.1 = k
  · have hb : (p.1 != k) = false := by simp [hp]
    simp [alRemove, List.filter_cons, hb, hp]
  · have hb : (p.1 != k) = true := by simp [hp]
    simp [alRemove, List.filter_cons, hb, hp]

/-- Lookup at a removed key fails. -/
theorem alGet_alRemove_self {α : Type} (m : List (Uuid × α)) (k : Uuid) :
    alGet (alRemove m k) k = none := by
  induction m with
  | nil => simp [alGet, alRemove]
  | cons p m ih =>
    rw [alRemove_cons]
    by_cases hp : p.1 = k
    · simp only [hp, if_true]
      exact ih
    · simp only [hp, if_false]
      rw [alGet_cons]
      simp only [hp, if_false]
      exact ih

/-- Lookup at any other key ignores a removal. -/
theorem alGet_alRemove_ne {α : Type} (m : List (Uuid × α)) (k k' : Uuid)
    (h : k' ≠ k) :
    alGet (alRemove m k) k' = alGet m k' := by
  induction m with
  | nil => simp [alGet, alRemove]
  | cons p m ih =>
    rw [alRemove_cons, alGet_cons]
    by_cases hp : p.1 = k
    · have hne : ¬ p.1 = k' := by rw [hp]; exact fun hc => h hc.symm
      rw [if_pos hp, if_neg hne]
      exact ih
    · simp only [hp, if_false]
      rw [alGet_cons]
      by_cases hq : p.1 = k'
      · simp [hq]
      · simp only [hq, if_false]
        exact ih

/-- A fresh insert is an append. -/
theorem alInsert_fresh {α : Type} (m : List (Uuid × α)) (k : Uuid) (v : α)
    (h : alGet m k = none) :
    alInsert m k v = m ++ [(k, v)] := by
  have hc : alContains m k = false := by
    rw [alContains_eq_isSome, h]; rfl
  simp [alInsert, hc]

/-- C1: completing an event fails with the not-found error when the id is
absent, with the already-ended error when the event has an end time, with
the invalid-range error when the (possibly defaulted) end time is at or
before the start time, succeeds exactly when none of these hold, and every
failure returns the ledger completely unchanged. -/
theorem complete_error_characterization (s : EventManager) (event_id : Uuid)
    (end_time : Option Timestamp) (now : Timestamp) :
    ((s.set_event_end_time event_id end_time now).1 = Except.ok () ↔
      ∃ e, alGet s.events event_id = some e ∧ e.end_time = none ∧
        e.start_time < end_time.getD now) ∧
    (alGet s.events event_id = none →
      s.set_event_end_time event_id end_time now =
        (Except.error errEventNotFound, s)) ∧
    (∀ e, alGet s.events event_id = some e → e.end_time.isSome = true →
      s.set_event_end_time event_id end_time now =
        (Except.error errAlreadyEnded, s)) ∧
    (∀ e, alGet s.events event_id = some e → e.end_time = none →
      end_time.getD now ≤ e.start_time →
      s.set_event_end_time event_id end_time now =
        (Except.error errEndBeforeStart, s)) := by
  refine ⟨?_, ?_, ?_, ?_⟩
  · cases hm : alGet s.events event_id with
    | none => simp [EventManager.set_event_end_time, hm]
    | some e =>
      cases hend : e.end_time with
      | some t => simp [EventManager.set_event_end_time, hm, hend]
      | none =>
        by_cases hle : end_time.getD now ≤ e.start_time
        · simp [EventManager.set_event_end_time, hm, hend, hle, not_lt.mpr hle]
        · simp [EventManager.set_event_end_time, hm, hend, hle,
            lt_of_not_le hle]
  · intro hm
    simp [EventManager.set_event_end_time, hm]
  · intro e hm hsome
    simp [EventManager.set_event_end_time, hm, hsome]
  · intro e hm hnone hle
    simp [EventManager.set_event_end_time, hm, hnone, hle]

/-- Witness for C1 at a concrete ledger: a one-event ledger where the event
completes successfully and an unknown id fails with not-found. -/
theorem complete_error_characterization_witness :
    ((EventManager.new.add_non_project_event "w" none (some 0) 0).2.set_event_end_time
      0 (some 120) 0).1 = Except.ok () ∧
    (EventManager.new.add_non_project_event "w" none (some 0) 0).2.set_event_end_time
      1 (some 120) 0 =
      (Except.error errEventNotFound,
        (EventManager.new.add_non_project_event "w" none (some 0) 0).2) := by
  constructor
  · exact (complete_error_characterization _ 0 (some 120) 0).1.mpr
      ⟨Event.new "w" none .nonProject 0 0 0, by decide, by decide, by decide⟩
  · exact (complete_error_characterization _ 1 (some 120) 0).2.1 (by decide)

/-- C4: deleting an absent event fails with not-found and changes nothing;
deleting a present event succeeds, removes that event, leaves every other
event unchanged, and removes exactly the time records carrying the deleted
event id. -/
theorem delete_characterization (s : EventManager) (event_id : Uuid) :
    (alGet s.events event_id = none →
      s.delete_event event_id = (Except.error errEventNotFound, s)) ∧
    (∀ e, alGet s.events event_id = some e →
      (s.delete_event event_id).1 = Except.ok () ∧
      alGet (s.delete_event event_id).2.events event_id = none ∧
      (∀ k, k ≠ event_id →
        alGet (s.delete_event event_id).2.events k = alGet s.events k) ∧
      (∀ q, q ∈ (s.delete_event event_id).2.time_records ↔
        q ∈ s.time_records ∧ q.2.event_id ≠ event_id)) := by
  constructor
  · intro hm
    have hc : alContains s.events event_id = false := by
      rw [alContains_eq_isSome, hm]; rfl
    simp [EventManager.delete_event, hc]
  · intro e hm
    have hc : alContains s.events event_id = true := by
      rw [alContains_eq_isSome, hm]; rfl
    refine ⟨by simp [EventManager.delete_event, hc], ?_, ?_, ?_⟩
    · simp [EventManager.delete_event, hc, alGet_alRemove_self]
    · intro k hk
      simp only [EventManager.delete_event, hc, if_true]
      exact alGet_alRemove_ne s.events event_id k hk
    · intro q
      simp only [EventManager.delete_event, hc, if_true]
      rw [List.mem_filter]
      simp [bne_iff_ne]

/-- Witness for C4: deleting the single event of a concrete ledger succeeds
and deleting from the empty ledger fails with not-found. -/
theorem delete_characterization_witness :
    ((EventManager.new.add_non_project_event "a" none (some 0) 0).2.delete_event
      0).1 = Except.ok () ∧
    EventManager.new.delete_event 5 =
      (Except.error errEventNotFound, EventManager.new) := by
  constructor
  · exact ((delete_characterization _ 0).2
      (Event.new "a" none .nonProject 0 0 0) (by decide)).1
  · exact (delete_characterization EventManager.new 5).1 (by decide)

/-- C6: over any window, project time plus non-project time equals the sum
of the durations of all records starting inside the window: the two filters
partition the in-window records by presence of a project id. -/
theorem project_time_partition (time_records : List TimeRecord)
    (start_time s_end : Timestamp) :
    calculate_project_time time_records start_time s_end +
      calculate_non_project_time time_records start_time s_end =
    ((time_records.filter (fun r => inWindow r start_time s_end)).map
      (fun r => r.duration_minutes)).sum := by
  induction time_records with
  | nil => simp [calculate_project_time, calculate_non_project_time]
  | cons r rest ih =>
    simp only [calculate_project_time, calculate_non_project_time,
      List.filter_cons] at ih ⊢
    by_cases hw : inWindow r start_time s_end = true
    · cases hp : r.project_id with
      | some pid =>
        simp [hp, hw]
        omega
      | none =>
        simp [hp, hw]
        omega
    · have hw2 : inWindow r start_time s_end = false := by
        simpa using hw
      simp [hw2]
      omega

/-- Project time is nonnegative when every record duration is. -/
theorem calculate_project_time_nonneg (time_records : List TimeRecord)
    (start_time s_end : Timestamp)
    (h : ∀ r ∈ time_records, 0 ≤ r.duration_minutes) :
    0 ≤ calculate_project_time time_records start_time s_end := by
  unfold calculate_project_time
  apply List.sum_nonneg
  intro x hx
  simp only [List.mem_map] at hx
  obtain ⟨r, hr, rfl⟩ := hx
  exact h r (List.mem_of_mem_filter hr)

/-- Non-project time is nonnegative when every record duration is. -/
theorem calculate_non_project_time_nonneg (time_records : List TimeRecord)
    (start_time s_end : Timestamp)
    (h : ∀ r ∈ time_records, 0 ≤ r.duration_minutes) :
    0 ≤ calculate_non_project_time time_records start_time s_end := by
  unfold calculate_non_project_time
  apply List.sum_nonneg
  intro x hx
  simp only [List.mem_map] at hx
  obtain ⟨r, hr, rfl⟩ := hx
  exact h r (List.mem_of_mem_filter hr)

/-- Unfolding equation for the efficiency statistic. -/
theorem get_efficiency_stats_eq (time_records : List TimeRecord)
    (start_time s_end : Timestamp) :
    get_efficiency_stats time_records start_time s_end =
      if calculate_project_time time_records start_time s_end +
          calculate_non_project_time time_records start_time s_end = 0 then 0
      else ((calculate_project_time time_records start_time s_end : ℚ) /
        ((calculate_project_time time_records start_time s_end +
          calculate_non_project_time time_records start_time s_end : Int) :
            ℚ)) * 100 := rfl

/-- A single non-project record whose 30 minutes fall inside the window. -/
def nonProjectOnlyRecord : TimeRecord :=
  { id := 0, event_id := 0, project_id := none, start_time := 0,
    end_time := 1800, duration_minutes := 30, created_at := 0 }

/-- C5 counterexample: with one non-project record of 30 minutes inside the
window the efficiency is 0 while the total time in the window is 30, not 0,
so efficiency being 0 does not imply a zero total. -/
theorem efficiency_zero_counterexample :
    get_efficiency_stats [nonProjectOnlyRecord] 0 100 = 0 ∧
    calculate_project_time [nonProjectOnlyRecord] 0 100 +
      calculate_non_project_time [nonProjectOnlyRecord] 0 100 = 30 := by
  constructor
  · rw [get_efficiency_stats_eq]
    norm_num [calculate_project_time, calculate_non_project_time,
      nonProjectOnlyRecord, inWindow]
  · norm_num [calculate_project_time, calculate_non_project_time,
      nonProjectOnlyRecord, inWindow]

/-- C5 amended: over records with nonnegative durations the efficiency is
the guarded ratio, always within 0 and 100, and it is 0 exactly when the
project time in the window is 0 (not exactly when the total is 0). -/
theorem efficiency_bounds (time_records : List TimeRecord)
    (start_time s_end : Timestamp)
    (h : ∀ r ∈ time_records, 0 ≤ r.duration_minutes) :
    0 ≤ get_efficiency_stats time_records start_time s_end ∧
    get_efficiency_stats time_records start_time s_end ≤ 100 ∧
    (get_efficiency_stats time_records start_time s_end = 0 ↔
      calculate_project_time time_records start_time s_end = 0) := by
  have hp := calculate_project_time_nonneg time_records start_time s_end h
  have hn := calculate_non_project_time_nonneg time_records start_time s_end h
  rw [get_efficiency_stats_eq]
  set p := calculate_project_time time_records start_time s_end with hpdef
  set n := calculate_non_project_time time_records start_time s_end with hndef
  by_cases ht : p + n = 0
  · have hp0 : p = 0 := by omega
    simp [ht, hp0]
  · have htpos : (0 : Int) < p + n := lt_of_le_of_ne (by omega) (Ne.symm ht)
    have htQ : (0 : ℚ) < ((p + n : Int) : ℚ) := by exact_mod_cast htpos
    have hpQ : (0 : ℚ) ≤ (p : ℚ) := by exact_mod_cast hp
    have hle : (p : ℚ) ≤ ((p + n : Int) : ℚ) := by
      exact_mod_cast (by omega : p ≤ p + n)
    simp only [ht, if_false]
    refine ⟨?_, ?_, ?_⟩
    · exact mul_nonneg (div_nonneg hpQ (le_of_lt htQ)) (by norm_num)
    · have h1 : (p : ℚ) / ((p + n : Int) : ℚ) ≤ 1 := (div_le_one htQ).mpr hle
      calc (p : ℚ) / ((p + n : Int) : ℚ) * 100 ≤ 1 * 100 :=
            mul_le_mul_of_nonneg_right h1 (by norm_num)
        _ = 100 := one_mul 100
    · constructor
      · intro h0
        rcases mul_eq_zero.mp h0 with h2 | h2
        · rcases div_eq_zero_iff.mp h2 with h3 | h3
          · exact_mod_cast h3
          · exact absurd h3 (ne_of_gt htQ)
        · norm_num at h2
      · intro h0
        rw [h0]
        norm_num

/-- A single project-tagged record of 60 minutes inside the window. -/
def projectRecord60 : TimeRecord :=
  { id := 1, event_id := 1, project_id := some 7, start_time := 0,
    end_time := 3600, duration_minutes := 60, created_at := 0 }

/-- Witness for C5 amended: a concrete mixed ledger of 60 project minutes
and 30 non-project minutes has efficiency between 0 and 100 and nonzero. -/
theorem efficiency_bounds_witness :
    0 ≤ get_efficiency_stats [projectRecord60, nonProjectOnlyRecord] 0 100 ∧
    get_efficiency_stats [projectRecord60, nonProjectOnlyRecord] 0 100 ≤
      100 ∧
    (get_efficiency_stats [projectRecord60, nonProjectOnlyRecord] 0 100 = 0 ↔
      calculate_project_time [projectRecord60, nonProjectOnlyRecord] 0 100 =
        0) :=
  efficiency_bounds [projectRecord60, nonProjectOnlyRecord] 0 100 (by decide)

/-- C9: for nonnegative minute counts the formatter renders the largest
applicable units with zero components omitted: below 60 only minutes, below
1440 hours with the leftover minutes omitted when zero, otherwise days then
the leftover hours and minutes each only when nonzero; and on the concrete
inputs 30, 90, 120, 1500, 2880 it renders the documented strings. -/
theorem format_duration_characterization (minutes : Int) (h : 0 ≤ minutes) :
    (minutes < 60 → format_duration minutes = toString minutes ++ "分钟") ∧
    (60 ≤ minutes → minutes < 1440 →
      (Int.tmod minutes 60 = 0 →
        format_duration minutes = toString (Int.tdiv minutes 60) ++ "小时") ∧
      (Int.tmod minutes 60 ≠ 0 →
        format_duration minutes = toString (Int.tdiv minutes 60) ++ "小时" ++
          toString (Int.tmod minutes 60) ++ "分钟")) ∧
    (1440 ≤ minutes → format_duration minutes =
      toString (Int.tdiv minutes 1440) ++ "天" ++
      (if 0 < Int.tdiv (Int.tmod minutes 1440) 60 then
        toString (Int.tdiv (Int.tmod minutes 1440) 60) ++ "小时" else "") ++
      (if 0 < Int.tmod minutes 60 then
        toString (Int.tmod minutes 60) ++ "分钟" else "")) ∧
    format_duration 30 = "30分钟" ∧
    format_duration 90 = "1小时30分钟" ∧
    format_duration 120 = "2小时" ∧
    format_duration 1500 = "1天1小时" ∧
    format_duration 2880 = "2天" := by
  refine ⟨?_, ?_, ?_, by decide, by decide, by decide, by decide, by decide⟩
  · intro h60
    simp [format_duration, h60]
  · intro h60 h1440
    have hn60 : ¬ minutes < 60 := not_lt.mpr h60
    constructor
    · intro hz
      simp [format_duration, hn60, h1440, hz]
    · intro hz
      simp [format_duration, hn60, h1440, hz]
  · intro h1440
    have hn60 : ¬ minutes < 60 := not_lt.mpr (by omega)
    have hn1440 : ¬ minutes < 1440 := not_lt.mpr h1440
    by_cases hh : 0 < Int.tdiv (Int.tmod minutes 1440) 60
    · by_cases hm : 0 < Int.tmod minutes 60
      · simp [format_duration, hn60, hn1440, hh, hm, String.append_assoc]
      · simp [format_duration, hn60, hn1440, hh, hm, String.append_assoc]
    · by_cases hm : 0 < Int.tmod minutes 60
      · simp [format_duration, hn60, hn1440, hh, hm, String.append_assoc]
      · simp [format_duration, hn60, hn1440, hh, hm, String.append_assoc]

/-- Witness for C9: the characterization applied at 90 minutes yields the
hour-and-minute rendering. -/
theorem format_duration_characterization_witness :
    format_duration 90 = toString (Int.tdiv (90 : Int) 60) ++ "小时" ++
      toString (Int.tmod (90 : Int) 60) ++ "分钟" :=
  (((format_duration_characterization 90 (by decide)).2.1 (by decide)
    (by decide)).2 (by decide))

/-- Lookup misses when no binding carries the key. -/
theorem alGet_eq_none_of_forall_ne {α : Type} (m : List (Uuid × α))
    (k : Uuid) (h : ∀ p ∈ m, p.1 ≠ k) : alGet m k = none := by
  induction m with
  | nil => rfl
  | cons p m ih =>
    rw [alGet_cons, if_neg (h p (by simp))]
    exact ih (fun q hq => h q (by simp [hq]))

/-- Number of active projects in a registry state. -/
def activeCount (s : ProjectManager) : Nat :=
  (s.projects.filter (fun p => p.2.is_active)).length

/-- One mutating call on the project registry. -/
inductive PMStep : ProjectManager → ProjectManager → Prop where
  | add (s : ProjectManager) (name : String) (descr : Option String)
      (now : Timestamp) : PMStep s (s.add_project name descr now).2
  | del (s : ProjectManager) (project_id : Uuid) :
      PMStep s (s.delete_project project_id).2
  | switch (s : ProjectManager) (project_id : Uuid) :
      PMStep s (s.switch_to_project project_id).2
  | update (s : ProjectManager) (project_id : Uuid)
      (name descr : Option String) :
      PMStep s (s.update_project project_id name descr).2

/-- Registry states reachable from a new registry by mutating calls. -/
inductive PMReachable : ProjectManager → Prop where
  | init : PMReachable ProjectManager.new
  | step {s s' : ProjectManager} : PMReachable s → PMStep s s' →
      PMReachable s'

/-- Structural invariant of reachable registry states: each binding carries
its own id as key, keys are fresh-bounded and distinct, at most one project
is active, and the current pointer names a present project. -/
def PMInv (s : ProjectManager) : Prop :=
  (∀ p ∈ s.projects, p.2.id = p.1 ∧ p.1 < s.nextId) ∧
  (s.projects.map Prod.fst).Nodup ∧
  activeCount s ≤ 1 ∧
  (∀ id, s.current_project_id = some id →
    alContains s.projects id = true)

/-- A successful switch rewrites every binding, making exactly the bindings
keyed by the chosen id active. -/
theorem switch_projects_eq (s : ProjectManager) (project_id : Uuid)
    (h : alContains s.projects project_id = true) :
    (s.switch_to_project project_id).2.projects =
      s.projects.map (fun p =>
        (p.1, p.2.set_active (p.1 == project_id))) := by
  simp only [ProjectManager.switch_to_project, h, if_true]
  rw [alModify, List.map_map]
  apply List.map_congr_left
  intro p _
  by_cases hk : p.1 = project_id
  · have hb : (p.1 == project_id) = true := beq_iff_eq.mpr hk
    simp [Function.comp, hb, Project.set_active]
  · have hb : (p.1 == project_id) = false := by simpa using hk
    simp [Function.comp, hb, Project.set_active]

/-- A successful switch keeps the key sequence. -/
theorem switch_keys (s : ProjectManager) (project_id : Uuid)
    (h : alContains s.projects project_id = true) :
    (s.switch_to_project project_id).2.projects.map Prod.fst =
      s.projects.map Prod.fst := by
  rw [switch_projects_eq s project_id h, List.map_map]
  rfl

/-- Containment is witnessed in the key sequence. -/
theorem alContains_iff_mem_keys {α : Type} (m : List (Uuid × α))
    (k : Uuid) : alContains m k = true ↔ k ∈ m.map Prod.fst := by
  induction m with
  | nil => simp [alContains]
  | cons p m ih =>
    rw [alContains_cons]
    by_cases h : p.1 = k
    · simp [h]
    · simp only [h, decide_false_eq_false, decide_False, Bool.false_or,
        List.map_cons, List.mem_cons, ih]
      constructor
      · exact Or.inr
      · rintro (hc | hc)
        · exact absurd hc.symm h
        · exact hc

/-- With distinct keys, a successful switch leaves exactly one active
project. -/
theorem switch_activeCount (s : ProjectManager) (project_id : Uuid)
    (h : alContains s.projects project_id = true)
    (hnd : (s.projects.map Prod.fst).Nodup) :
    activeCount (s.switch_to_project project_id).2 = 1 := by
  unfold activeCount
  rw [switch_projects_eq s project_id h]
  rw [← List.countP_eq_length_filter, List.countP_map]
  have hcongr : ∀ p : Uuid × Project,
      ((fun q : Uuid × Project => q.2.is_active) ∘
        (fun p : Uuid × Project =>
          (p.1, p.2.set_active (p.1 == project_id)))) p =
      ((fun k : Uuid => k == project_id) ∘ Prod.fst) p := by
    intro p
    simp [Project.set_active]
  rw [List.countP_congr (fun p _ => by rw [hcongr p])]
  rw [← List.countP_map]
  have hmem : project_id ∈ s.projects.map Prod.fst :=
    (alContains_iff_mem_keys s.projects project_id).mp h
  have hle : (s.projects.map Prod.fst).count project_id ≤ 1 :=
    List.nodup_iff_count_le_one.mp hnd project_id
  have hge : 1 ≤ (s.projects.map Prod.fst).count project_id :=
    List.count_pos_iff_mem.mpr hmem
  have : (s.projects.map Prod.fst).count project_id = 1 :=
    le_antisymm hle hge
  simpa [List.count] using this

/-- Membership description for a modified association list. -/
theorem mem_alModify {α : Type} (m : List (Uuid × α)) (k : Uuid)
    (f : α → α) (p : Uuid × α) (hp : p ∈ alModify m k f) :
    ∃ r ∈ m, p.1 = r.1 ∧ (p.2 = f r.2 ∨ p.2 = r.2) := by
  unfold alModify at hp
  rw [List.mem_map] at hp
  obtain ⟨r, hr, rfl⟩ := hp
  by_cases hk : r.1 = k
  · have hb : (r.1 == k) = true := beq_iff_eq.mpr hk
    exact ⟨r, hr, by simp [hb], Or.inl (by simp [hb])⟩
  · have hb : (r.1 == k) = false := by simpa using hk
    exact ⟨r, hr, by simp [hb], Or.inr (by simp [hb])⟩

/-- A value-level count is unchanged by a modification that the counted
predicate cannot see. -/
theorem alModify_countP (m : List (Uuid × Project)) (k : Uuid)
    (f : Project → Project) (g : Project → Bool)
    (h : ∀ v, g (f v) = g v) :
    (alModify m k f).countP (fun p => g p.2) =
      m.countP (fun p => g p.2) := by
  unfold alModify
  rw [List.countP_map]
  apply List.countP_congr
  intro p _
  by_cases hk : p.1 = k
  · have hb : (p.1 == k) = true := beq_iff_eq.mpr hk
    simp [Function.comp, hb, h]
  · have hb : (p.1 == k) = false := by simpa using hk
    simp [Function.comp, hb]

/-- The active-project count as a predicate count. -/
theorem activeCount_eq_countP (s : ProjectManager) :
    activeCount s = s.projects.countP (fun p => p.2.is_active) := by
  rw [activeCount, ← List.countP_eq_length_filter]

/-- Every registry operation preserves the structural invariant. -/
theorem PMInv_step {s s' : ProjectManager} (hinv : PMInv s)
    (hstep : PMStep s s') : PMInv s' := by
  obtain ⟨hids, hnd, hact, hcur⟩ := hinv
  cases hstep with
  | add name descr now =>
    by_cases hemp : s.projects.isEmpty
    · have hnil : s.projects = [] := List.isEmpty_iff.mp hemp
      have hstate : (s.add_project name descr now).2 =
          { projects := [(s.nextId,
              (Project.new name descr s.nextId now).set_active true)],
            current_project_id := some s.nextId,
            nextId := s.nextId + 1 } := by
        simp [ProjectManager.add_project, hemp, hnil, alInsert, alContains,
          Project.new]
      rw [hstate]
      refine ⟨?_, ?_, ?_, ?_⟩
      · intro p hp
        simp only [List.mem_singleton] at hp
        subst hp
        exact ⟨rfl, Nat.lt_succ_self _⟩
      · simp
      · simp [activeCount, Project.new, Project.set_active]
      · intro id hid
        simp only [Option.some_inj] at hid
        subst hid
        simp [alContains]
    · have hfresh : alGet s.projects s.nextId = none :=
        alGet_eq_none_of_forall_ne _ _
          (fun p hp => Nat.ne_of_lt (hids p hp).2)
      have hins : alInsert s.projects s.nextId
          (Project.new name descr s.nextId now) =
          s.projects ++ [(s.nextId, Project.new name descr s.nextId now)] :=
        alInsert_fresh _ _ _ hfresh
      have hstate : (s.add_project name descr now).2 =
          { projects :=
              s.projects ++ [(s.nextId, Project.new name descr s.nextId now)],
            current_project_id := s.current_project_id,
            nextId := s.nextId + 1 } := by
        simp [ProjectManager.add_project, hemp, Project.new] at hins ⊢
        exact hins
      rw [hstate]
      refine ⟨?_, ?_, ?_, ?_⟩
      · intro p hp
        rcases List.mem_append.mp hp with hmem | hmem
        · obtain ⟨h1, h2⟩ := hids p hmem
          exact ⟨h1, Nat.lt_succ_of_lt h2⟩
        · simp only [List.mem_singleton] at hmem
          subst hmem
          exact ⟨rfl, Nat.lt_succ_self _⟩
      · rw [List.map_append, List.nodup_append]
        refine ⟨hnd, List.nodup_singleton _, ?_⟩
        intro k hk hk2
        simp only [List.map_cons, List.map_nil, List.mem_singleton] at hk2
        subst hk2
        rw [List.mem_map] at hk
        obtain ⟨p, hp, hp2⟩ := hk
        exact absurd hp2 (Nat.ne_of_lt (hids p hp).2)
      · rw [activeCount_eq_countP] at hact ⊢
        simp only [List.countP_append]
        have hnew : (Project.new name descr s.nextId now).is_active = false :=
          rfl
        simp [List.countP_cons, hnew]
        exact hact
      · intro id hid
        simp only at hid
        have hc := hcur id hid
        rw [alContains_iff_mem_keys] at hc ⊢
        rw [List.map_append]
        exact List.mem_append.mpr (Or.inl hc)
  | del pid =>
    by_cases hc : alContains s.projects pid = true
    · have hstate : (s.delete_project pid).2 =
          { projects := alRemove s.projects pid,
            current_project_id :=
              if s.current_project_id = some pid then none
              else s.current_project_id,
            nextId := s.nextId } := by
        simp [ProjectManager.delete_project, hc]
      rw [hstate]
      refine ⟨?_, ?_, ?_, ?_⟩
      · intro p hp
        exact hids p (List.mem_of_mem_filter hp)
      · exact hnd.sublist (List.Sublist.map _ (List.filter_sublist _))
      · rw [activeCount_eq_countP] at hact ⊢
        calc (alRemove s.projects pid).countP (fun p => p.2.is_active)
            ≤ s.projects.countP (fun p => p.2.is_active) :=
              (List.filter_sublist _).countP_le _
          _ ≤ 1 := hact
      · intro id hid
        simp only at hid
        by_cases hcc : s.current_project_id = some pid
        · simp [hcc] at hid
        · simp only [hcc, if_false] at hid
          have hne : id ≠ pid := by
            intro hcontra
            exact hcc (by rw [← hcontra]; exact hid)
          have hm := hcur id hid
          rw [alContains_eq_isSome] at hm ⊢
          rw [alGet_alRemove_ne _ _ _ hne]
          exact hm
    · have hc2 : alContains s.projects pid = false := by simpa using hc
      have hsame : (s.delete_project pid).2 = s := by
        simp [ProjectManager.delete_project, hc2]
      rw [hsame]
      exact ⟨hids, hnd, hact, hcur⟩
  | switch pid =>
    by_cases hc : alContains s.projects pid = true
    · have hproj := switch_projects_eq s pid hc
      have hcur_eq : (s.switch_to_project pid).2.current_project_id =
          some pid := by
        simp [ProjectManager.switch_to_project, hc]
      have hnext_eq : (s.switch_to_project pid).2.nextId = s.nextId := by
        simp [ProjectManager.switch_to_project, hc]
      refine ⟨?_, ?_, ?_, ?_⟩
      · intro p hp
        rw [hproj, List.mem_map] at hp
        obtain ⟨r, hr, rfl⟩ := hp
        obtain ⟨h1, h2⟩ := hids r hr
        rw [hnext_eq]
        exact ⟨by simpa [Project.set_active] using h1, h2⟩
      · rw [switch_keys s pid hc]
        exact hnd
      · rw [switch_activeCount s pid hc hnd]
      · intro id hid
        rw [hcur_eq, Option.some_inj] at hid
        subst hid
        rw [alContains_iff_mem_keys, switch_keys s pid hc]
        exact (alContains_iff_mem_keys _ _).mp hc
    · have hc2 : alContains s.projects pid = false := by simpa using hc
      have hsame : (s.switch_to_project pid).2 = s := by
        simp [ProjectManager.switch_to_project, hc2]
      rw [hsame]
      exact ⟨hids, hnd, hact, hcur⟩
  | update pid name descr =>
    by_cases hc : alContains s.projects pid = true
    · have hproj : (s.update_project pid name descr).2.projects =
          alModify s.projects pid (fun p =>
            let p1 := match name with
              | some n => { p with name := n }
              | none => p
            if descr.isSome then { p1 with description := descr } else p1) :=
        by simp [ProjectManager.update_project, hc]
      have hcur_eq : (s.update_project pid name descr).2.current_project_id =
          s.current_project_id := by
        simp [ProjectManager.update_project, hc]
      have hnext_eq : (s.update_project pid name descr).2.nextId =
          s.nextId := by
        simp [ProjectManager.update_project, hc]
      have hfid : ∀ v : Project, ((fun p : Project =>
          let p1 := match name with
            | some n => { p with name := n }
            | none => p
          if descr.isSome then { p1 with description := descr } else p1)
            v).id = v.id := by
        intro v
        cases name <;> by_cases hd : descr.isSome <;> simp [hd]
      have hfac : ∀ v : Project, ((fun p : Project =>
          let p1 := match name with
            | some n => { p with name := n }
            | none => p
          if descr.isSome then { p1 with description := descr } else p1)
            v).is_active = v.is_active := by
        intro v
        cases name <;> by_cases hd : descr.isSome <;> simp [hd]
      refine ⟨?_, ?_, ?_, ?_⟩
      · intro p hp
        rw [hproj] at hp
        obtain ⟨r, hr, h1, h2⟩ := mem_alModify _ _ _ p hp
        obtain ⟨hr1, hr2⟩ := hids r hr
        rw [hnext_eq, h1]
        rcases h2 with h2 | h2
        · rw [h2, hfid]
          exact ⟨hr1, hr2⟩
        · rw [h2]
          exact ⟨hr1, hr2⟩
      · rw [hproj, alModify_keys]
        exact hnd
      · rw [activeCount_eq_countP] at hact ⊢
        rw [hproj, alModify_countP _ _ _ _ hfac]
        exact hact
      · intro id hid
        rw [hcur_eq] at hid
        have hm := hcur id hid
        rw [alContains_iff_mem_keys] at hm ⊢
        rw [hproj, alModify_keys]
        exact hm
    · have hc2 : alContains s.projects pid = false := by simpa using hc
      have hsame : (s.update_project pid name descr).2 = s := by
        simp [ProjectManager.update_project, hc2]
      rw [hsame]
      exact ⟨hids, hnd, hact, hcur⟩

/-- Every reachable registry state satisfies the structural invariant. -/
theorem PMReachable_inv {s : ProjectManager} (h : PMReachable s) :
    PMInv s := by
  induction h with
  | init =>
    refine ⟨?_, ?_, ?_, ?_⟩ <;>
      simp [ProjectManager.new, activeCount, PMInv]
  | step _ hstep ih => exact PMInv_step ih hstep

/-- Full state equation of a successful switch. -/
theorem switch_state_eq (s : ProjectManager) (project_id : Uuid)
    (h : alContains s.projects project_id = true) :
    (s.switch_to_project project_id).2 =
      { projects := s.projects.map (fun p =>
          (p.1, p.2.set_active (p.1 == project_id))),
        current_project_id := some project_id,
        nextId := s.nextId } := by
  have h1 := switch_projects_eq s project_id h
  simp only [ProjectManager.switch_to_project, h, if_true] at h1 ⊢
  rw [ProjectManager.mk.injEq]
  exact ⟨h1, rfl, rfl⟩

/-- C3: switching to a present project succeeds, activates exactly the
bindings of that id and deactivates all others, sets it current, leaves
exactly one active project when keys are distinct, is idempotent under
repetition, and every reachable registry state has at most one active
project. -/
theorem switch_to_project_characterization (s : ProjectManager)
    (project_id : Uuid)
    (hpresent : alContains s.projects project_id = true) :
    (s.switch_to_project project_id).1 = Except.ok () ∧
    (∀ p ∈ (s.switch_to_project project_id).2.projects,
      p.2.is_active = (p.1 == project_id)) ∧
    (s.switch_to_project project_id).2.current_project_id =
      some project_id ∧
    ((s.projects.map Prod.fst).Nodup →
      activeCount (s.switch_to_project project_id).2 = 1) ∧
    ((s.switch_to_project project_id).2.switch_to_project project_id).2 =
      (s.switch_to_project project_id).2 ∧
    (∀ t, PMReachable t → activeCount t ≤ 1) := by
  refine ⟨?_, ?_, ?_, ?_, ?_, ?_⟩
  · simp [ProjectManager.switch_to_project, hpresent]
  · intro p hp
    rw [switch_projects_eq s project_id hpresent, List.mem_map] at hp
    obtain ⟨r, hr, rfl⟩ := hp
    simp [Project.set_active]
  · simp [ProjectManager.switch_to_project, hpresent]
  · intro hnd
    exact switch_activeCount s project_id hpresent hnd
  · have hc1 : alContains (s.switch_to_project project_id).2.projects
        project_id = true := by
      rw [alContains_iff_mem_keys, switch_keys s project_id hpresent]
      exact (alContains_iff_mem_keys _ _).mp hpresent
    rw [switch_state_eq _ project_id hc1,
      switch_state_eq s project_id hpresent]
    simp only [List.map_map]
    rw [ProjectManager.mk.injEq]
    refine ⟨?_, rfl, rfl⟩
    apply List.map_congr_left
    intro p _
    simp [Function.comp, Project.set_active]
  · intro t ht
    exact (PMReachable_inv ht).2.2.1

/-- Witness for C3 at a concrete two-project registry: switching to the
first project succeeds, makes it current, and one project is active. -/
theorem switch_to_project_characterization_witness :
    ((((ProjectManager.new.add_project "a" none 0).2.add_project
      "b" none 0).2.switch_to_project 0).1 = Except.ok ()) ∧
    ((((ProjectManager.new.add_project "a" none 0).2.add_project
      "b" none 0).2.switch_to_project 0).2.current_project_id = some 0) ∧
    activeCount (((ProjectManager.new.add_project "a" none 0).2.add_project
      "b" none 0).2.switch_to_project 0).2 = 1 := by
  have h := switch_to_project_characterization
    ((ProjectManager.new.add_project "a" none 0).2.add_project "b" none 0).2
    0 (by decide)
  exact ⟨h.1, h.2.2.1, h.2.2.2.1 (by decide)⟩

/-- C10: in every reachable registry state the current pointer, when set,
names a present project, and get_current_project returns a project exactly
when the pointer is set. -/
theorem current_pointer_valid (s : ProjectManager) (h : PMReachable s) :
    (∀ id, s.current_project_id = some id →
      (alGet s.projects id).isSome = true) ∧
    (s.get_current_project).isSome = (s.current_project_id).isSome := by
  obtain ⟨_, _, _, hcur⟩ := PMReachable_inv h
  constructor
  · intro id hid
    have hm := hcur id hid
    rwa [alContains_eq_isSome] at hm
  · cases hc : s.current_project_id with
    | none => simp [ProjectManager.get_current_project, hc]
    | some id =>
      have hs := hcur id hc
      rw [alContains_eq_isSome] at hs
      simp [ProjectManager.get_current_project, hc, hs]

/-- Witness for C10 at a concrete reachable registry built by two adds and
a delete of the current project. -/
theorem current_pointer_valid_witness :
    ((((ProjectManager.new.add_project "a" none 0).2.add_project
      "b" none 0).2.delete_project 0).2.get_current_project).isSome =
    ((((ProjectManager.new.add_project "a" none 0).2.add_project
      "b" none 0).2.delete_project 0).2.current_project_id).isSome :=
  (current_pointer_valid _
    (PMReachable.step (PMReachable.step (PMReachable.step PMReachable.init
      (PMStep.add ProjectManager.new "a" none 0))
      (PMStep.add _ "b" none 0))
      (PMStep.del _ 0))).2

/-- C7 counterexample: add a project (it gets id 0), delete it, then add a
second project.  The second project is not the first project ever added to
the registry, yet it is created with is_active true and becomes current,
because the code auto-activates whenever the registry is empty at the call,
not only on the historically first add. -/
theorem add_after_delete_counterexample :
    (ProjectManager.new.add_project "P1" none 0).1 = 0 ∧
    ((((ProjectManager.new.add_project "P1" none 0).2.delete_project
      0).2.add_project "P2" none 0).1 = 1 ∧
    (alGet (((ProjectManager.new.add_project "P1" none 0).2.delete_project
      0).2.add_project "P2" none 0).2.projects 1).map Project.is_active =
      some true ∧
    (((ProjectManager.new.add_project "P1" none 0).2.delete_project
      0).2.add_project "P2" none 0).2.current_project_id = some 1) := by
  decide

/-- C7 amended: add_project returns the fresh id and creates the project
with is_active equal to whether the registry was empty at the call (so any
add into an empty registry, not only the historically first, is
auto-activated and becomes current); other bindings are untouched; and the
documented scenario holds: after adding P1 then P2 to a new registry, P1 is
current and active while P2 is inactive. -/
theorem add_project_characterization (s : ProjectManager) (name : String)
    (descr : Option String) (now : Timestamp)
    (hfresh : ∀ p ∈ s.projects, p.1 < s.nextId) :
    (s.add_project name descr now).1 = s.nextId ∧
    alGet (s.add_project name descr now).2.projects s.nextId =
      some { id := s.nextId, name := name, description := descr,
             created_at := now, is_active := s.projects.isEmpty } ∧
    (∀ k, k ≠ s.nextId →
      alGet (s.add_project name descr now).2.projects k =
        alGet s.projects k) ∧
    (s.add_project name descr now).2.current_project_id =
      (if s.projects.isEmpty then some s.nextId
       else s.current_project_id) ∧
    ((let s1 := (ProjectManager.new.add_project "P1" none 0).2
      let s2 := (s1.add_project "P2" none 0).2
      s2.get_current_project = some
        { id := 0, name := "P1", description := none, created_at := 0,
          is_active := true } ∧
      (alGet s2.projects 1).map Project.is_active = some false)) := by
  have hget : alGet s.projects s.nextId = none :=
    alGet_eq_none_of_forall_ne _ _ (fun p hp => Nat.ne_of_lt (hfresh p hp))
  by_cases hemp : s.projects.isEmpty
  · have hnil : s.projects = [] := List.isEmpty_iff.mp hemp
    refine ⟨?_, ?_, ?_, ?_, by decide⟩
    · simp [ProjectManager.add_project, Project.new, hnil]
    · simp [ProjectManager.add_project, hemp, hnil, alInsert, alContains,
        Project.new, Project.set_active, alGet, List.find?]
    · intro k hk
      have hk2 : ¬ (s.nextId = k) := fun hc => hk hc.symm
      simp [ProjectManager.add_project, hemp, hnil, alInsert, alContains,
        Project.new, Project.set_active, alGet, List.find?, hk2]
    · simp [ProjectManager.add_project, hemp, Project.new]
  · have hemp2 : s.projects.isEmpty = false := by simpa using hemp
    have hins : alInsert s.projects s.nextId
        (Project.new name descr s.nextId now) =
        s.projects ++ [(s.nextId, Project.new name descr s.nextId now)] :=
      alInsert_fresh _ _ _ hget
    have hstate : (s.add_project name descr now).2 =
        { projects :=
            s.projects ++ [(s.nextId, Project.new name descr s.nextId now)],
          current_project_id := s.current_project_id,
          nextId := s.nextId + 1 } := by
      simp [ProjectManager.add_project, hemp, Project.new] at hins ⊢
      exact hins
    have hne : s.projects ≠ [] := by
      simpa [List.isEmpty_iff] using hemp
    refine ⟨?_, ?_, ?_, ?_, by decide⟩
    · simp [ProjectManager.add_project, Project.new, hne]
    · rw [hstate]
      simp only [hemp2]
      exact alGet_append_single_self _ _ _ hget
    · intro k hk
      rw [hstate]
      exact alGet_append_single_ne _ _ _ _ hk
    · rw [hstate]
      simp [hemp2]

/-- Witness for C7 amended: applying the characterization to the registry
holding only P1 shows the second added project is created inactive. -/
theorem add_project_characterization_witness :
    alGet ((ProjectManager.new.add_project "P1" none 0).2.add_project
      "P2" none 0).2.projects
        (ProjectManager.new.add_project "P1" none 0).2.nextId =
      some { id := (ProjectManager.new.add_project "P1" none 0).2.nextId,
             name := "P2", description := none, created_at := 0,
             is_active :=
               (ProjectManager.new.add_project "P1" none 0).2.projects.isEmpty } :=
  (add_project_characterization
    (ProjectManager.new.add_project "P1" none 0).2 "P2" none 0
    (by decide)).2.1

/-- A successful lookup is a membership. -/
theorem alGet_some_mem {α : Type} (m : List (Uuid × α)) (k : Uuid) (v : α)
    (h : alGet m k = some v) : (k, v) ∈ m := by
  induction m with
  | nil => simp [alGet] at h
  | cons p m ih =>
    rw [alGet_cons] at h
    by_cases hp : p.1 = k
    · rw [if_pos hp, Option.some_inj] at h
      cases p
      simp only at hp h
      subst hp
      subst h
      exact List.mem_cons_self _ _
    · rw [if_neg hp] at h
      exact List.mem_cons_of_mem _ (ih h)

/-- With distinct keys a membership determines the lookup. -/
theorem alGet_of_mem_nodup {α : Type} (m : List (Uuid × α)) (k : Uuid)
    (v : α) (hnd : (m.map Prod.fst).Nodup) (h : (k, v) ∈ m) :
    alGet m k = some v := by
  induction m with
  | nil => simp at h
  | cons p m ih =>
    rw [List.map_cons, List.nodup_cons] at hnd
    rw [alGet_cons]
    rcases List.mem_cons.mp h with hh | hh
    · rw [← hh]
      simp
    · have hk : k ∈ m.map Prod.fst :=
        List.mem_map.mpr ⟨(k, v), hh, rfl⟩
      have hne : p.1 ≠ k := fun hc => hnd.1 (hc ▸ hk)
      rw [if_neg hne]
      exact ih hnd.2 hh

/-- Membership description for a modified association list, recording
whether the binding was the modified one. -/
theorem mem_alModify_cases {α : Type} (m : List (Uuid × α)) (k : Uuid)
    (f : α → α) (p : Uuid × α) (hp : p ∈ alModify m k f) :
    ∃ r ∈ m, p.1 = r.1 ∧
      ((r.1 = k ∧ p.2 = f r.2) ∨ (r.1 ≠ k ∧ p.2 = r.2)) := by
  unfold alModify at hp
  rw [List.mem_map] at hp
  obtain ⟨r, hr, rfl⟩ := hp
  by_cases hk : r.1 = k
  · have hb : (r.1 == k) = true := beq_iff_eq.mpr hk
    exact ⟨r, hr, by simp [hb], Or.inl ⟨hk, by simp [hb]⟩⟩
  · have hb : (r.1 == k) = false := by simpa using hk
    exact ⟨r, hr, by simp [hb], Or.inr ⟨hk, by simp [hb]⟩⟩

/-- Time records stored for a given event id. -/
def recsFor (l : List (Uuid × TimeRecord)) (eid : Uuid) : List TimeRecord :=
  (l.filter (fun q => q.2.event_id == eid)).map (fun q => q.2)

/-- Records for an id distribute over an appended binding. -/
theorem recsFor_append (l : List (Uuid × TimeRecord)) (k : Uuid)
    (tr : TimeRecord) (eid : Uuid) :
    recsFor (l ++ [(k, tr)]) eid =
      recsFor l eid ++ (if tr.event_id = eid then [tr] else []) := by
  unfold recsFor
  rw [List.filter_append, List.map_append]
  by_cases h : tr.event_id = eid
  · have hb : (tr.event_id == eid) = true := beq_iff_eq.mpr h
    simp [hb, h]
  · have hb : (tr.event_id == eid) = false := by simpa using h
    simp [hb, h]

/-- Removing the records of one event keeps the records of any other. -/
theorem recsFor_filter_ne (l : List (Uuid × TimeRecord)) (eid0 k : Uuid)
    (h : k ≠ eid0) :
    recsFor (l.filter (fun q => q.2.event_id != eid0)) k = recsFor l k := by
  unfold recsFor
  rw [List.filter_filter]
  congr 1
  apply List.filter_congr
  intro q _
  by_cases hq : q.2.event_id = k
  · have h1 : (q.2.event_id == k) = true := beq_iff_eq.mpr hq
    have h2 : (q.2.event_id != eid0) = true := by
      simp only [bne_iff_ne, ne_eq, hq]
      exact h
    simp [h1, h2]
  · have h1 : (q.2.event_id == k) = false := by simpa using hq
    simp [h1]

/-- No records exist for an id missing from every binding. -/
theorem recsFor_eq_nil (l : List (Uuid × TimeRecord)) (eid : Uuid)
    (h : ∀ q ∈ l, q.2.event_id ≠ eid) : recsFor l eid = [] := by
  unfold recsFor
  have : l.filter (fun q => q.2.event_id == eid) = [] := by
    rw [List.filter_eq_nil_iff]
    intro q hq
    simpa using h q hq
  rw [this]
  rfl

/-- One mutating call on the event ledger. -/
inductive EMStep : EventManager → EventManager → Prop where
  | addProject (s : EventManager) (title : String) (descr : Option String)
      (project_id : Uuid) (start_time : Option Timestamp) (now : Timestamp) :
      EMStep s (s.add_project_event title descr project_id start_time now).2
  | addNonProject (s : EventManager) (title : String)
      (descr : Option String) (start_time : Option Timestamp)
      (now : Timestamp) :
      EMStep s (s.add_non_project_event title descr start_time now).2
  | setEnd (s : EventManager) (event_id : Uuid)
      (end_time : Option Timestamp) (now : Timestamp) :
      EMStep s (s.set_event_end_time event_id end_time now).2
  | del (s : EventManager) (event_id : Uuid) :
      EMStep s (s.delete_event event_id).2
  | update (s : EventManager) (event_id : Uuid)
      (title descr : Option String) :
      EMStep s (s.update_event event_id title descr).2

/-- Ledger states reachable from a new ledger by mutating calls. -/
inductive EMReachable : EventManager → Prop where
  | init : EMReachable EventManager.new
  | step {s s' : EventManager} : EMReachable s → EMStep s s' →
      EMReachable s'

/-- The record r is the one synthesized from completing event e at time t:
identifiers, window and the floor of the elapsed minutes all copied. -/
def recordMatches (e : Event) (t : Timestamp) (r : TimeRecord) : Prop :=
  r.event_id = e.id ∧ r.project_id = projectIdOfType e.event_type ∧
  r.start_time = e.start_time ∧ r.end_time = t ∧
  r.duration_minutes = Int.fdiv (t - e.start_time) 60

/-- Structural invariant of reachable ledger states: bindings carry their
own id, keys are fresh-bounded and distinct, record event references are
fresh-bounded, every completed event owns exactly one matching record and
every active event owns none. -/
def EMInv (s : EventManager) : Prop :=
  (∀ p ∈ s.events, p.2.id = p.1 ∧ p.1 < s.nextId) ∧
  ((s.events.map Prod.fst).Nodup) ∧
  (∀ q ∈ s.time_records, q.1 < s.nextId ∧ q.2.event_id < s.nextId) ∧
  ((s.time_records.map Prod.fst).Nodup) ∧
  (∀ p ∈ s.events, ∀ t, p.2.end_time = some t →
    ∃ r, recsFor s.time_records p.1 = [r] ∧ recordMatches p.2 t r) ∧
  (∀ p ∈ s.events, p.2.end_time = none →
    recsFor s.time_records p.1 = [])

/-- Full state equation of a successful completion. -/
theorem setEnd_state_eq (s : EventManager) (event_id : Uuid)
    (end_time : Option Timestamp) (now : Timestamp) (e : Event)
    (he : alGet s.events event_id = some e) (hnone : e.end_time = none)
    (hlt : e.start_time < end_time.getD now)
    (hkeys : ∀ q ∈ s.time_records, q.1 < s.nextId) :
    s.set_event_end_time event_id end_time now =
      (Except.ok (),
        { events := alModify s.events event_id
            (fun ev => ev.set_end_time (end_time.getD now)),
          time_records := s.time_records ++
            [(s.nextId,
              TimeRecord.new event_id (projectIdOfType e.event_type)
                e.start_time (end_time.getD now) s.nextId now)],
          nextId := s.nextId + 1 }) := by
  have hfresh : alGet s.time_records s.nextId = none :=
    alGet_eq_none_of_forall_ne _ _ (fun q hq => Nat.ne_of_lt (hkeys q hq))
  have hins := alInsert_fresh s.time_records s.nextId
    (TimeRecord.new event_id (projectIdOfType e.event_type) e.start_time
      (end_time.getD now) s.nextId now) hfresh
  have hnle : ¬ (end_time.getD now ≤ e.start_time) := not_le.mpr hlt
  simp only [EventManager.set_event_end_time, he, hnone, Option.isSome_none,
    Bool.false_eq_true, if_false, hnle, TimeRecord.new] at hins ⊢
  rw [hins]

/-- Inserting a fresh active event preserves the ledger invariant. -/
theorem EMInv_addEvent (s : EventManager) (ev : Event) (hinv : EMInv s)
    (hid : ev.id = s.nextId) (hend : ev.end_time = none) :
    EMInv { events := alInsert s.events ev.id ev,
            time_records := s.time_records, nextId := s.nextId + 1 } := by
  obtain ⟨hids, hnd, hrb, hrnd, hcomp, hincomp⟩ := hinv
  have hfresh : alGet s.events ev.id = none := by
    rw [hid]
    exact alGet_eq_none_of_forall_ne _ _
      (fun p hp => Nat.ne_of_lt (hids p hp).2)
  have hins := alInsert_fresh s.events ev.id ev hfresh
  rw [EMInv, hins]
  refine ⟨?_, ?_, ?_, ?_, ?_, ?_⟩
  · intro p hp
    rcases List.mem_append.mp hp with hmem | hmem
    · obtain ⟨h1, h2⟩ := hids p hmem
      exact ⟨h1, Nat.lt_succ_of_lt h2⟩
    · simp only [List.mem_singleton] at hmem
      subst hmem
      exact ⟨rfl, by simpa [hid] using Nat.lt_succ_self s.nextId⟩
  · simp only [List.map_append, List.nodup_append]
    refine ⟨hnd, List.nodup_singleton _, ?_⟩
    intro k hk hk2
    simp only [List.map_cons, List.map_nil, List.mem_singleton] at hk2
    subst hk2
    rw [List.mem_map] at hk
    obtain ⟨p, hp, hp2⟩ := hk
    rw [hid] at hp2
    exact absurd hp2 (Nat.ne_of_lt (hids p hp).2)
  · intro q hq
    obtain ⟨h1, h2⟩ := hrb q hq
    exact ⟨Nat.lt_succ_of_lt h1, Nat.lt_succ_of_lt h2⟩
  · exact hrnd
  · intro p hp t ht
    rcases List.mem_append.mp hp with hmem | hmem
    · exact hcomp p hmem t ht
    · simp only [List.mem_singleton] at hmem
      subst hmem
      rw [hend] at ht
      exact absurd ht (by simp)
  · intro p hp hpe
    rcases List.mem_append.mp hp with hmem | hmem
    · exact hincomp p hmem hpe
    · simp only [List.mem_singleton] at hmem
      subst hmem
      apply recsFor_eq_nil
      intro q hq
      rw [hid]
      exact Nat.ne_of_lt (hrb q hq).2

/-- A successful completion preserves the ledger invariant. -/
theorem EMInv_setEnd (s : EventManager) (event_id : Uuid)
    (end_time : Option Timestamp) (now : Timestamp) (e : Event)
    (hinv : EMInv s) (he : alGet s.events event_id = some e)
    (hnone : e.end_time = none)
    (hlt : e.start_time < end_time.getD now) :
    EMInv (s.set_event_end_time event_id end_time now).2 := by
  obtain ⟨hids, hnd, hrb, hrnd, hcomp, hincomp⟩ := hinv
  have hstate := setEnd_state_eq s event_id end_time now e he hnone hlt
    (fun q hq => (hrb q hq).1)
  have hmem := alGet_some_mem s.events event_id e he
  have heid : e.id = event_id := (hids (event_id, e) hmem).1
  have heb : event_id < s.nextId := (hids (event_id, e) hmem).2
  rw [hstate]
  set endT := end_time.getD now with hendT
  set tr := TimeRecord.new event_id (projectIdOfType e.event_type)
    e.start_time endT s.nextId now with htr
  refine ⟨?_, ?_, ?_, ?_, ?_, ?_⟩
  · intro p hp
    simp only at hp
    obtain ⟨r, hr, h1, h2⟩ := mem_alModify_cases _ _ _ p hp
    obtain ⟨hr1, hr2⟩ := hids r hr
    rw [h1]
    rcases h2 with ⟨_, h2⟩ | ⟨_, h2⟩
    · rw [h2]
      exact ⟨hr1, Nat.lt_succ_of_lt hr2⟩
    · rw [h2]
      exact ⟨hr1, Nat.lt_succ_of_lt hr2⟩
  · simp only [alModify_keys]
    exact hnd
  · intro q hq
    simp only at hq
    rcases List.mem_append.mp hq with hmem2 | hmem2
    · obtain ⟨h1, h2⟩ := hrb q hmem2
      exact ⟨Nat.lt_succ_of_lt h1, Nat.lt_succ_of_lt h2⟩
    · simp only [List.mem_singleton] at hmem2
      subst hmem2
      exact ⟨Nat.lt_succ_self _, Nat.lt_succ_of_lt heb⟩
  · simp only [List.map_append, List.nodup_append]
    refine ⟨hrnd, List.nodup_singleton _, ?_⟩
    intro k hk hk2
    simp only [List.map_cons, List.map_nil, List.mem_singleton] at hk2
    subst hk2
    rw [List.mem_map] at hk
    obtain ⟨q, hq, hq2⟩ := hk
    exact absurd hq2 (Nat.ne_of_lt (hrb q hq).1)
  · intro p hp t ht
    simp only at hp ht ⊢
    obtain ⟨r, hr, h1, h2⟩ := mem_alModify_cases _ _ _ p hp
    rcases h2 with ⟨hk, h2⟩ | ⟨hk, h2⟩
    · have hre : r.2 = e := by
        have := alGet_of_mem_nodup s.events r.1 r.2 hnd hr
        rw [hk, he, Option.some_inj] at this
        exact this.symm
      have htt : t = endT := by
        rw [h2, hre] at ht
        simpa [Event.set_end_time] using ht.symm
      refine ⟨tr, ?_, ?_⟩
      · rw [h1, hk, recsFor_append]
        have htre : tr.event_id = event_id := rfl
        rw [if_pos htre]
        rw [hincomp (event_id, e) hmem hnone, List.nil_append]
      · rw [h2, hre, htt]
        refine ⟨?_, rfl, rfl, rfl, ?_⟩
        · simp [htr, TimeRecord.new, Event.set_end_time, heid]
        · simp only [htr, TimeRecord.new, Event.set_end_time]
          exact (Int.fdiv_eq_tdiv (sub_nonneg.mpr (le_of_lt hlt))
            (by norm_num)).symm
    · rw [h1, recsFor_append]
      have htre : ¬ (tr.event_id = r.1) := by
        intro hc
        exact hk (by rw [← hc]; rfl)
      rw [if_neg htre, List.append_nil]
      have hend2 : r.2.end_time = some t := by rw [← h2]; exact ht
      obtain ⟨rec, hrec, hmatch⟩ := hcomp r hr t hend2
      exact ⟨rec, hrec, by rw [h2]; exact hmatch⟩
  · intro p hp hpe
    simp only at hp hpe ⊢
    obtain ⟨r, hr, h1, h2⟩ := mem_alModify_cases _ _ _ p hp
    rcases h2 with ⟨hk, h2⟩ | ⟨hk, h2⟩
    · rw [h2] at hpe
      exact absurd hpe (by simp [Event.set_end_time])
    · rw [h1, recsFor_append]
      have htre : ¬ (tr.event_id = r.1) := by
        intro hc
        exact hk (by rw [← hc]; rfl)
      rw [if_neg htre, List.append_nil]
      exact hincomp r hr (by rw [← h2]; exact hpe)

/-- Every ledger operation preserves the structural invariant. -/
theorem EMInv_step {s s' : EventManager} (hinv : EMInv s)
    (hstep : EMStep s s') : EMInv s' := by
  cases hstep with
  | addProject title descr project_id start_time now =>
    have hstate : (s.add_project_event title descr project_id start_time
        now).2 =
        { events := alInsert s.events
                      (Event.new title descr (.projectRelated project_id)
                        (start_time.getD now) s.nextId now).id
                      (Event.new title descr (.projectRelated project_id)
                        (start_time.getD now) s.nextId now),
          time_records := s.time_records, nextId := s.nextId + 1 } := rfl
    rw [hstate]
    exact EMInv_addEvent s _ hinv rfl rfl
  | addNonProject title descr start_time now =>
    have hstate : (s.add_non_project_event title descr start_time now).2 =
        { events := alInsert s.events
                      (Event.new title descr .nonProject
                        (start_time.getD now) s.nextId now).id
                      (Event.new title descr .nonProject
                        (start_time.getD now) s.nextId now),
          time_records := s.time_records, nextId := s.nextId + 1 } := rfl
    rw [hstate]
    exact EMInv_addEvent s _ hinv rfl rfl
  | setEnd event_id end_time now =>
    cases he : alGet s.events event_id with
    | none =>
      have hsame : (s.set_event_end_time event_id end_time now).2 = s := by
        simp [EventManager.set_event_end_time, he]
      rw [hsame]
      exact hinv
    | some e =>
      cases hend : e.end_time with
      | some t =>
        have hsame : (s.set_event_end_time event_id end_time now).2 = s := by
          simp [EventManager.set_event_end_time, he, hend]
        rw [hsame]
        exact hinv
      | none =>
        by_cases hle : end_time.getD now ≤ e.start_time
        · have hsame : (s.set_event_end_time event_id end_time now).2 =
              s := by
            simp [EventManager.set_event_end_time, he, hend, hle]
          rw [hsame]
          exact hinv
        · exact EMInv_setEnd s event_id end_time now e hinv he hend
            (lt_of_not_le hle)
  | del event_id =>
    by_cases hc : alContains s.events event_id = true
    · obtain ⟨hids, hnd, hrb, hrnd, hcomp, hincomp⟩ := hinv
      have hstate : (s.delete_event event_id).2 =
          { events := alRemove s.events event_id,
            time_records :=
              s.time_records.filter (fun q => q.2.event_id != event_id),
            nextId := s.nextId } := by
        simp [EventManager.delete_event, hc]
      rw [hstate]
      refine ⟨?_, ?_, ?_, ?_, ?_, ?_⟩
      · intro p hp
        exact hids p (List.mem_of_mem_filter hp)
      · exact hnd.sublist (List.Sublist.map _ (List.filter_sublist _))
      · intro q hq
        exact hrb q (List.mem_of_mem_filter hq)
      · exact hrnd.sublist (List.Sublist.map _ (List.filter_sublist _))
      · intro p hp t ht
        simp only at hp ht ⊢
        have hp2 := List.mem_filter.mp hp
        have hne : p.1 ≠ event_id := by
          simpa [bne_iff_ne] using hp2.2
        rw [recsFor_filter_ne _ _ _ hne]
        exact hcomp p hp2.1 t ht
      · intro p hp hpe
        simp only at hp hpe ⊢
        have hp2 := List.mem_filter.mp hp
        have hne : p.1 ≠ event_id := by
          simpa [bne_iff_ne] using hp2.2
        rw [recsFor_filter_ne _ _ _ hne]
        exact hincomp p hp2.1 hpe
    · have hc2 : alContains s.events event_id = false := by simpa using hc
      have hsame : (s.delete_event event_id).2 = s := by
        simp [EventManager.delete_event, hc2]
      rw [hsame]
      exact hinv
  | update event_id title descr =>
    by_cases hc : alContains s.events event_id = true
    · obtain ⟨hids, hnd, hrb, hrnd, hcomp, hincomp⟩ := hinv
      have hstate : (s.update_event event_id title descr).2 =
          { events := alModify s.events event_id (fun e =>
              let e1 := match title with
                | some tt => { e with title := tt }
                | none => e
              if descr.isSome then { e1 with description := descr }
              else e1),
            time_records := s.time_records, nextId := s.nextId } := by
        simp [EventManager.update_event, hc]
      have hkeep : ∀ v : Event, (((fun e : Event =>
          let e1 := match title with
            | some tt => { e with title := tt }
            | none => e
          if descr.isSome then { e1 with description := descr } else e1))
            v).id = v.id ∧ (((fun e : Event =>
          let e1 := match title with
            | some tt => { e with title := tt }
            | none => e
          if descr.isSome then { e1 with description := descr } else e1))
            v).end_time = v.end_time ∧ (((fun e : Event =>
          let e1 := match title with
            | some tt => { e with title := tt }
            | none => e
          if descr.isSome then { e1 with description := descr } else e1))
            v).event_type = v.event_type ∧ (((fun e : Event =>
          let e1 := match title with
            | some tt => { e with title := tt }
            | none => e
          if descr.isSome then { e1 with description := descr } else e1))
            v).start_time = v.start_time := by
        intro v
        cases title <;> by_cases hd : descr.isSome <;> simp [hd]
      rw [hstate]
      refine ⟨?_, ?_, ?_, ?_, ?_, ?_⟩
      · intro p hp
        simp only at hp
        obtain ⟨r, hr, h1, h2⟩ := mem_alModify_cases _ _ _ p hp
        obtain ⟨hr1, hr2⟩ := hids r hr
        rw [h1]
        rcases h2 with ⟨_, h2⟩ | ⟨_, h2⟩
        · rw [h2, (hkeep r.2).1]
          exact ⟨hr1, hr2⟩
        · rw [h2]
          exact ⟨hr1, hr2⟩
      · simp only [alModify_keys]
        exact hnd
      · exact hrb
      · exact hrnd
      · intro p hp t ht
        simp only at hp ht ⊢
        obtain ⟨r, hr, h1, h2⟩ := mem_alModify_cases _ _ _ p hp
        rcases h2 with ⟨_, h2⟩ | ⟨_, h2⟩
        · have hend2 : r.2.end_time = some t := by
            rw [h2, (hkeep r.2).2.1] at ht
            exact ht
          obtain ⟨rec, hrec, hmatch⟩ := hcomp r hr t hend2
          refine ⟨rec, by rw [h1]; exact hrec, ?_⟩
          rw [h2]
          obtain ⟨hm1, hm2, hm3, hm4, hm5⟩ := hmatch
          exact ⟨by rw [(hkeep r.2).1]; exact hm1,
            by rw [(hkeep r.2).2.2.1]; exact hm2,
            by rw [(hkeep r.2).2.2.2]; exact hm3, hm4,
            by rw [(hkeep r.2).2.2.2]; exact hm5⟩
        · have hend2 : r.2.end_time = some t := by rw [← h2]; exact ht
          obtain ⟨rec, hrec, hmatch⟩ := hcomp r hr t hend2
          exact ⟨rec, by rw [h1]; exact hrec, by rw [h2]; exact hmatch⟩
      · intro p hp hpe
        simp only at hp hpe ⊢
        obtain ⟨r, hr, h1, h2⟩ := mem_alModify_cases _ _ _ p hp
        rcases h2 with ⟨_, h2⟩ | ⟨_, h2⟩
        · have hend2 : r.2.end_time = none := by
            rw [h2, (hkeep r.2).2.1] at hpe
            exact hpe
          rw [h1]
          exact hincomp r hr hend2
        · have hend2 : r.2.end_time = none := by rw [← h2]; exact hpe
          rw [h1]
          exact hincomp r hr hend2
    · have hc2 : alContains s.events event_id = false := by simpa using hc
      have hsame : (s.update_event event_id title descr).2 = s := by
        simp [EventManager.update_event, hc2]
      rw [hsame]
      exact hinv

/-- Every reachable ledger state satisfies the structural invariant. -/
theorem EMReachable_inv {s : EventManager} (h : EMReachable s) : EMInv s := by
  induction h with
  | init =>
    refine ⟨?_, ?_, ?_, ?_, ?_, ?_⟩ <;>
      simp [EventManager.new, EMInv]
  | step _ hstep ih => exact EMInv_step ih hstep

/-- C2: a successful completion sets the event's end time and appends
exactly one new time record copying the event id, the project id derived
from the kind, the start time and the end time, with duration equal to the
floor of the elapsed minutes (truncating integer division of the elapsed
seconds by 60); and in every ledger state reachable from the empty ledger
every completed event owns exactly one matching time record. -/
theorem complete_success_record (s : EventManager) (event_id : Uuid)
    (end_time : Option Timestamp) (now : Timestamp) (e : Event)
    (hreach : EMReachable s) (he : alGet s.events event_id = some e)
    (hok : (s.set_event_end_time event_id end_time now).1 = Except.ok ()) :
    (alGet (s.set_event_end_time event_id end_time now).2.events event_id =
      some (e.set_end_time (end_time.getD now))) ∧
    ((s.set_event_end_time event_id end_time now).2.time_records =
      s.time_records ++
        [(s.nextId, TimeRecord.new event_id (projectIdOfType e.event_type)
            e.start_time (end_time.getD now) s.nextId now)]) ∧
    (TimeRecord.new event_id (projectIdOfType e.event_type) e.start_time
        (end_time.getD now) s.nextId now).duration_minutes =
      Int.fdiv (end_time.getD now - e.start_time) 60 ∧
    (∀ u, EMReachable u → ∀ p ∈ u.events, ∀ t, p.2.end_time = some t →
      ∃ r, recsFor u.time_records p.1 = [r] ∧ recordMatches p.2 t r) := by
  have hinv := EMReachable_inv hreach
  obtain ⟨hids, hnd, hrb, hrnd, hcomp, hincomp⟩ := hinv
  have hend : e.end_time = none := by
    cases hend : e.end_time with
    | some t => simp [EventManager.set_event_end_time, he, hend] at hok
    | none => rfl
  have hlt : e.start_time < end_time.getD now := by
    by_cases hle : end_time.getD now ≤ e.start_time
    · simp [EventManager.set_event_end_time, he, hend, hle] at hok
    · exact lt_of_not_le hle
  have hstate := setEnd_state_eq s event_id end_time now e he hend hlt
    (fun q hq => (hrb q hq).1)
  refine ⟨?_, ?_, ?_, ?_⟩
  · rw [hstate]
    simp [alGet_alModify_self, he]
  · rw [hstate]
  · simp only [TimeRecord.new]
    exact (Int.fdiv_eq_tdiv (sub_nonneg.mpr (le_of_lt hlt))
      (by norm_num)).symm
  · intro u hu p hp t ht
    exact (EMReachable_inv hu).2.2.2.2.1 p hp t ht

/-- Witness for C2: completing a concrete project event started at 0 at
time 7200 stores the 120-minute record. -/
theorem complete_success_record_witness :
    alGet ((EventManager.new.add_project_event "w" none 7 (some 0)
        0).2.set_event_end_time 0 (some 7200) 0).2.events 0 =
      some ((Event.new "w" none (.projectRelated 7) 0 0 0).set_end_time
        7200) ∧
    ((EventManager.new.add_project_event "w" none 7 (some 0)
        0).2.set_event_end_time 0 (some 7200) 0).2.time_records =
      (EventManager.new.add_project_event "w" none 7 (some 0)
        0).2.time_records ++
        [((EventManager.new.add_project_event "w" none 7 (some 0)
            0).2.nextId,
          TimeRecord.new 0 (projectIdOfType
              (Event.new "w" none (.projectRelated 7) 0 0 0).event_type)
            (Event.new "w" none (.projectRelated 7) 0 0 0).start_time 7200
            (EventManager.new.add_project_event "w" none 7 (some 0)
              0).2.nextId 0)] := by
  have h := complete_success_record
    (EventManager.new.add_project_event "w" none 7 (some 0) 0).2
    0 (some 7200) 0 (Event.new "w" none (.projectRelated 7) 0 0 0)
    (EMReachable.step EMReachable.init
      (EMStep.addProject EventManager.new "w" none 7 (some 0) 0))
    (by decide) rfl
  exact ⟨h.1, h.2.1⟩

/-- C8: in a reachable ledger, an event whose end time is set keeps exactly
that end time across any further ledger operation as long as it is present,
and any further attempt to complete it fails with the already-ended error
and leaves the ledger unchanged. -/
theorem end_time_terminal {s s' : EventManager} (hreach : EMReachable s)
    (hstep : EMStep s s') (event_id : Uuid) (e : Event) (t : Timestamp)
    (he : alGet s.events event_id = some e) (ht : e.end_time = some t) :
    (∀ e2, alGet s'.events event_id = some e2 → e2.end_time = some t) ∧
    (∀ et nw, s.set_event_end_time event_id et nw =
      (Except.error errAlreadyEnded, s)) := by
  have hinv := EMReachable_inv hreach
  obtain ⟨hids, hnd, hrb, hrnd, hcomp, hincomp⟩ := hinv
  have hmem := alGet_some_mem s.events event_id e he
  have heb : event_id < s.nextId := (hids (event_id, e) hmem).2
  constructor
  · cases hstep with
    | addProject title descr project_id start_time now =>
      intro e2 he2
      have hfresh : alGet s.events s.nextId = none :=
        alGet_eq_none_of_forall_ne _ _
          (fun p hp => Nat.ne_of_lt (hids p hp).2)
      have hins := alInsert_fresh s.events s.nextId
        (Event.new title descr (.projectRelated project_id)
          (start_time.getD now) s.nextId now) hfresh
      have hsame : alGet (s.add_project_event title descr project_id
          start_time now).2.events event_id = alGet s.events event_id := by
        show alGet (alInsert s.events s.nextId _) event_id = _
        rw [hins]
        exact alGet_append_single_ne _ _ _ _ (Nat.ne_of_lt heb)
      rw [hsame, he, Option.some_inj] at he2
      rw [← he2]
      exact ht
    | addNonProject title descr start_time now =>
      intro e2 he2
      have hfresh : alGet s.events s.nextId = none :=
        alGet_eq_none_of_forall_ne _ _
          (fun p hp => Nat.ne_of_lt (hids p hp).2)
      have hins := alInsert_fresh s.events s.nextId
        (Event.new title descr .nonProject (start_time.getD now)
          s.nextId now) hfresh
      have hsame : alGet (s.add_non_project_event title descr
          start_time now).2.events event_id = alGet s.events event_id := by
        show alGet (alInsert s.events s.nextId _) event_id = _
        rw [hins]
        exact alGet_append_single_ne _ _ _ _ (Nat.ne_of_lt heb)
      rw [hsame, he, Option.some_inj] at he2
      rw [← he2]
      exact ht
    | setEnd eid0 et nw =>
      intro e2 he2
      cases he0 : alGet s.events eid0 with
      | none =>
        have hsame : (s.set_event_end_time eid0 et nw).2 = s := by
          simp [EventManager.set_event_end_time, he0]
        rw [hsame, he, Option.some_inj] at he2
        rw [← he2]
        exact ht
      | some e0 =>
        cases hend0 : e0.end_time with
        | some t0 =>
          have hsame : (s.set_event_end_time eid0 et nw).2 = s := by
            simp [EventManager.set_event_end_time, he0, hend0]
          rw [hsame, he, Option.some_inj] at he2
          rw [← he2]
          exact ht
        | none =>
          by_cases hle : et.getD nw ≤ e0.start_time
          · have hsame : (s.set_event_end_time eid0 et nw).2 = s := by
              simp [EventManager.set_event_end_time, he0, hend0, hle]
            rw [hsame, he, Option.some_inj] at he2
            rw [← he2]
            exact ht
          · have hne : event_id ≠ eid0 := by
              intro hc
              rw [hc, he0, Option.some_inj] at he
              rw [← he] at ht
              rw [hend0] at ht
              exact Option.noConfusion ht
            have hstate := setEnd_state_eq s eid0 et nw e0 he0 hend0
              (lt_of_not_le hle) (fun q hq => (hrb q hq).1)
            rw [hstate] at he2
            simp only at he2
            rw [alGet_alModify_ne _ _ _ _ hne, he, Option.some_inj] at he2
            rw [← he2]
            exact ht
    | del eid0 =>
      intro e2 he2
      by_cases hc : alContains s.events eid0 = true
      · have hstate : (s.delete_event eid0).2.events =
            alRemove s.events eid0 := by
          simp [EventManager.delete_event, hc]
        rw [hstate] at he2
        by_cases hne : event_id = eid0
        · rw [hne, alGet_alRemove_self] at he2
          exact Option.noConfusion he2
        · rw [alGet_alRemove_ne _ _ _ hne, he, Option.some_inj] at he2
          rw [← he2]
          exact ht
      · have hc2 : alContains s.events eid0 = false := by simpa using hc
        have hsame : (s.delete_event eid0).2 = s := by
          simp [EventManager.delete_event, hc2]
        rw [hsame, he, Option.some_inj] at he2
        rw [← he2]
        exact ht
    | update eid0 title descr =>
      by_cases hc : alContains s.events eid0 = true
      · have hstate : (s.update_event eid0 title descr).2.events =
            alModify s.events eid0 (fun ev =>
              let e1 := match title with
                | some tt => { ev with title := tt }
                | none => ev
              if descr.isSome then { e1 with description := descr }
              else e1) := by
          simp [EventManager.update_event, hc]
        intro e2 he2
        rw [hstate] at he2
        by_cases hne : event_id = eid0
        · subst hne
          rw [alGet_alModify_self, he] at he2
          cases title with
          | none =>
            by_cases hd : descr.isSome
            · simp [hd] at he2
              subst he2
              simp [ht]
            · simp [hd] at he2
              subst he2
              simp [ht]
          | some tt =>
            by_cases hd : descr.isSome
            · simp [hd] at he2
              subst he2
              simp [ht]
            · simp [hd] at he2
              subst he2
              simp [ht]
        · rw [alGet_alModify_ne _ _ _ _ hne, he, Option.some_inj] at he2
          rw [← he2]
          exact ht
      · intro e2 he2
        have hc2 : alContains s.events eid0 = false := by simpa using hc
        have hsame : (s.update_event eid0 title descr).2 = s := by
          simp [EventManager.update_event, hc2]
        rw [hsame, he, Option.some_inj] at he2
        rw [← he2]
        exact ht
  · intro et nw
    have hsome : e.end_time.isSome = true := by simp [ht]
    simp [EventManager.set_event_end_time, he, hsome]

/-- Witness for C8: a completed concrete event rejects a second completion
with the already-ended error, leaving the ledger unchanged, and survives a
title update with its end time intact. -/
theorem end_time_terminal_witness :
    ((EventManager.new.add_non_project_event "w" none (some 0)
        0).2.set_event_end_time 0 (some 7200) 0).2.set_event_end_time 0
        (some 9000) 0 =
      (Except.error errAlreadyEnded,
        ((EventManager.new.add_non_project_event "w" none (some 0)
          0).2.set_event_end_time 0 (some 7200) 0).2) :=
  (end_time_terminal
    (EMReachable.step (EMReachable.step EMReachable.init
      (EMStep.addNonProject EventManager.new "w" none (some 0) 0))
      (EMStep.setEnd _ 0 (some 7200) 0))
    (EMStep.update _ 0 (some "t") none)
    0 ((Event.new "w" none .nonProject 0 0 0).set_end_time 7200) 7200
    (by decide) (by decide)).2 (some 9000) 0
